import Mathlib

/-!
Verification of the MayaUIChanger repository (UIPresetLoader.py, install.py).

Strings are modelled as `List Char` (Lean `Char` is a Unicode scalar value,
which covers every string this program manipulates).  The regular-expression
rewrites of `apply_styles` are modelled by dedicated scanners that implement
exactly the two patterns the source uses, with Python's leftmost,
non-overlapping `re.sub` semantics.  File-system state is modelled by an
explicit `World` record, and fallible operations return `Except`.
-/

namespace MayaUIChanger

/-- Program strings: lists of Unicode scalar values. -/
abbrev Str := List Char

/-- Python's `needle in haystack` substring test (`str.__contains__`). -/
def strContains (needle : Str) : Str → Bool
  | [] => needle.isEmpty
  | c :: t => needle.isPrefixOf (c :: t) || strContains needle t

/-- Python's `\s` character class, on the ASCII range (every stylesheet and
settings text this add-on manipulates is ASCII). -/
def isPySpace (c : Char) : Bool :=
  c == ' ' || c == '\t' || c == '\n' || c == '\r' || c == '\x0b' || c == '\x0c'

/-- Case-insensitive character comparison, as used by `re.IGNORECASE`
(ASCII case folding; `Char.toLower` lower-cases exactly the ASCII letters). -/
def lowEq (p c : Char) : Bool := p.toLower == c.toLower

/-- `ciStarts pat s` : does `s` start with `pat`, case-insensitively?
Models matching the literal part of a regex under `re.IGNORECASE`. -/
def ciStarts : Str → Str → Bool
  | [], _ => true
  | _ :: _, [] => false
  | p :: ps, c :: cs => lowEq p c && ciStarts ps cs

/-- Index of the first character satisfying `p`, if any. -/
def findChar (p : Char → Bool) : Str → Option Nat
  | [] => none
  | c :: t => if p c then some 0 else (findChar p t).map (· + 1)

/-- Length of the maximal run of characters satisfying `p` at the front. -/
def countLeading (p : Char → Bool) : Str → Nat
  | [] => 0
  | c :: t => if p c then countLeading p t + 1 else 0

/-- Length of the match of the pattern `font-size:\s*[^;]+;` (with
`re.IGNORECASE`) at the head of `s`, if it matches there.  Greedy matching
of this pattern succeeds exactly when the literal `font-size:` (in any
case) is followed by a `;` with at least one character in between, and the
match extends to that first `;`. -/
def matchFS (s : Str) : Option Nat :=
  if ciStarts (("font-size:").data) s then
    match findChar (fun c => c == ';') (s.drop 10) with
    | some k => if k = 0 then none else some (10 + k + 1)
    | none => none
  else none

/-- Length of the match of the pattern `QWidget\s*\{[^}]+\}` (with
`re.IGNORECASE`) at the head of `s`, if it matches there: the literal
`QWidget` in any case, then the maximal run of whitespace, then `{`, then
at least one non-`}` character up to the first `}`. -/
def matchQW (s : Str) : Option Nat :=
  if ciStarts (("qwidget").data) s then
    match (s.drop 7).drop (countLeading isPySpace (s.drop 7)) with
    | c :: body =>
      if c = '\x7b' then
        match findChar (fun x => x == '\x7d') body with
        | some k =>
          if k = 0 then none
          else some (7 + countLeading isPySpace (s.drop 7) + 1 + k + 1)
        | none => none
      else none
    | [] => none
  else none

theorem findChar_le {p : Char → Bool} {s : Str} {k : Nat}
    (h : findChar p s = some k) : k < s.length := by
  induction s generalizing k with
  | nil => simp [findChar] at h
  | cons c t ih =>
    simp only [findChar] at h
    split at h
    · simp only [Option.some.injEq] at h
      simp only [List.length_cons]
      omega
    · cases hf : findChar p t with
      | none => simp [hf] at h
      | some j =>
        rw [hf] at h
        simp only [Option.map_some', Option.some.injEq] at h
        have := ih hf
        simp only [List.length_cons]
        omega

theorem matchFS_pos {s : Str} {n : Nat} (h : matchFS s = some n) : 0 < n := by
  unfold matchFS at h
  split at h
  · split at h
    · split at h
      · exact absurd h (by simp)
      · simp only [Option.some.injEq] at h; omega
    · exact absurd h (by simp)
  · exact absurd h (by simp)

theorem matchQW_pos {s : Str} {n : Nat} (h : matchQW s = some n) : 0 < n := by
  unfold matchQW at h
  split at h
  · split at h
    · split at h
      · split at h
        · split at h
          · exact absurd h (by simp)
          · simp only [Option.some.injEq] at h; omega
        · exact absurd h (by simp)
      · exact absurd h (by simp)
    · exact absurd h (by simp)
  · exact absurd h (by simp)

theorem ciStarts_length {pat s : Str} (h : ciStarts pat s = true) :
    pat.length ≤ s.length := by
  induction pat generalizing s with
  | nil => simp
  | cons p ps ih =>
    cases s with
    | nil => simp [ciStarts] at h
    | cons c cs =>
      simp only [ciStarts, Bool.and_eq_true] at h
      have := ih h.2
      simp only [List.length_cons]
      omega

theorem matchFS_le {s : Str} {n : Nat} (h : matchFS s = some n) :
    n ≤ s.length := by
  unfold matchFS at h
  split at h
  · rename_i hci
    have hlen : 10 ≤ s.length := ciStarts_length hci
    split at h
    · rename_i k hk
      have hkl : k < (s.drop 10).length := findChar_le hk
      split at h
      · exact absurd h (by simp)
      · simp only [Option.some.injEq] at h
        simp only [List.length_drop] at hkl
        omega
    · exact absurd h (by simp)
  · exact absurd h (by simp)

theorem countLeading_le (p : Char → Bool) (s : Str) :
    countLeading p s ≤ s.length := by
  induction s with
  | nil => simp [countLeading]
  | cons c t ih =>
    simp only [countLeading]
    split
    · simp only [List.length_cons]; omega
    · simp

theorem matchQW_le {s : Str} {n : Nat} (h : matchQW s = some n) :
    n ≤ s.length := by
  unfold matchQW at h
  split at h
  · rename_i hci
    have hlen : 7 ≤ s.length := ciStarts_length hci
    split at h
    · rename_i c0 body hbody
      split at h
      · split at h
        · rename_i k hk
          have hkl : k < body.length := findChar_le hk
          split at h
          · exact absurd h (by simp)
          · simp only [Option.some.injEq] at h
            have hw : countLeading isPySpace (s.drop 7) ≤ (s.drop 7).length :=
              countLeading_le _ _
            have hb : ((s.drop 7).drop (countLeading isPySpace (s.drop 7))).length
                = body.length + 1 := by rw [hbody]; simp
            simp only [List.length_drop] at hw hb ⊢
            omega
        · exact absurd h (by simp)
      · exact absurd h (by simp)
    · exact absurd h (by simp)
  · exact absurd h (by simp)

/-- Python's `re.sub(pattern, repl, s)` for the patterns above, with an
explicit structural-recursion budget: scan `s` left to right; at the leftmost
position where the matcher `m` succeeds, replace the matched text (whose
length `m` reports) by `r` applied to it, and continue after the match;
characters outside matches are kept.  The budget only serves termination:
this program's matchers never produce an empty match, so a budget of
`s.length` is never exhausted (the lemmas below assume exactly that). -/
def scanSubAux (m : Str → Option Nat) (r : Str → Str) : Nat → Str → Str
  | 0, _ => []
  | _, [] => []
  | fuel + 1, c :: t =>
    match m (c :: t) with
    | some n => r (List.take n (c :: t)) ++ scanSubAux m r fuel (List.drop n (c :: t))
    | none => c :: scanSubAux m r fuel t

/-- `re.sub` for matcher `m` and replacement function `r`. -/
def scanSub (m : Str → Option Nat) (r : Str → Str) (s : Str) : Str :=
  scanSubAux m r s.length s

/-- The decomposition of `s` induced by the same left-to-right scan:
unmatched characters (`Sum.inl`) interleaved with matched segments
(`Sum.inr`). -/
def scanChunksAux (m : Str → Option Nat) : Nat → Str → List (Char ⊕ Str)
  | 0, _ => []
  | _, [] => []
  | fuel + 1, c :: t =>
    match m (c :: t) with
    | some n =>
      Sum.inr (List.take n (c :: t)) :: scanChunksAux m fuel (List.drop n (c :: t))
    | none => Sum.inl c :: scanChunksAux m fuel t

/-- The match/non-match decomposition of `s` under matcher `m`. -/
def scanChunks (m : Str → Option Nat) (s : Str) : List (Char ⊕ Str) :=
  scanChunksAux m s.length s

/-- Rendering one chunk back to text. -/
def chunkStr : Char ⊕ Str → Str
  | Sum.inl c => [c]
  | Sum.inr b => b

/-- Rendering one chunk with matched segments rewritten by `r`. -/
def chunkSub (r : Str → Str) : Char ⊕ Str → Str
  | Sum.inl c => [c]
  | Sum.inr b => r b

theorem scanSub_eq_chunks_fuel (m : Str → Option Nat)
    (hm : ∀ s n, m s = some n → 0 < n) (r : Str → Str) :
    ∀ (fuel : Nat) (s : Str), s.length ≤ fuel →
      scanSubAux m r fuel s = (scanChunksAux m fuel s).flatMap (chunkSub r) := by
  intro fuel
  induction fuel with
  | zero =>
    intro s hs
    have : s = [] := List.length_eq_zero.mp (Nat.le_zero.mp hs)
    subst this
    rfl
  | succ k ih =>
    intro s hs
    cases s with
    | nil => rfl
    | cons c t =>
      cases hq : m (c :: t) with
      | some n =>
        have hp := hm _ _ hq
        simp only [scanSubAux, scanChunksAux, hq]
        rw [List.flatMap_cons]
        simp only [chunkSub]
        congr 1
        apply ih
        simp only [List.length_drop, List.length_cons]
        simp only [List.length_cons] at hs
        omega
      | none =>
        simp only [scanSubAux, scanChunksAux, hq]
        rw [List.flatMap_cons]
        simp only [chunkSub, List.singleton_append]
        congr 1
        apply ih
        simp only [List.length_cons] at hs
        omega

theorem scanSub_eq_chunks (m : Str → Option Nat)
    (hm : ∀ s n, m s = some n → 0 < n) (r : Str → Str) (s : Str) :
    scanSub m r s = (scanChunks m s).flatMap (chunkSub r) :=
  scanSub_eq_chunks_fuel m hm r s.length s (Nat.le_refl _)

theorem scanChunks_join_fuel (m : Str → Option Nat)
    (hm : ∀ s n, m s = some n → 0 < n) :
    ∀ (fuel : Nat) (s : Str), s.length ≤ fuel →
      (scanChunksAux m fuel s).flatMap chunkStr = s := by
  intro fuel
  induction fuel with
  | zero =>
    intro s hs
    have : s = [] := List.length_eq_zero.mp (Nat.le_zero.mp hs)
    subst this
    rfl
  | succ k ih =>
    intro s hs
    cases s with
    | nil => rfl
    | cons c t =>
      cases hq : m (c :: t) with
      | some n =>
        have hp := hm _ _ hq
        simp only [scanChunksAux, hq]
        rw [List.flatMap_cons]
        simp only [chunkStr]
        have htail : (scanChunksAux m k (List.drop n (c :: t))).flatMap chunkStr
            = List.drop n (c :: t) := by
          apply ih
          simp only [List.length_drop, List.length_cons]
          simp only [List.length_cons] at hs
          omega
        rw [htail, List.take_append_drop]
      | none =>
        simp only [scanChunksAux, hq]
        rw [List.flatMap_cons]
        simp only [chunkStr, List.singleton_append]
        congr 1
        apply ih
        simp only [List.length_cons] at hs
        omega

theorem scanChunks_join (m : Str → Option Nat)
    (hm : ∀ s n, m s = some n → 0 < n) (s : Str) :
    (scanChunks m s).flatMap chunkStr = s :=
  scanChunks_join_fuel m hm s.length s (Nat.le_refl _)

theorem scanChunks_inr_mem_fuel (m : Str → Option Nat)
    (hm : ∀ s n, m s = some n → 0 < n)
    (hle : ∀ s n, m s = some n → n ≤ s.length) :
    ∀ (fuel : Nat) (s : Str) (b : Str), s.length ≤ fuel →
      Sum.inr b ∈ scanChunksAux m fuel s →
      ∃ u v, s = u ++ b ++ v ∧ m (b ++ v) = some b.length := by
  intro fuel
  induction fuel with
  | zero =>
    intro s b hs hb
    have : s = [] := List.length_eq_zero.mp (Nat.le_zero.mp hs)
    subst this
    simp [scanChunksAux] at hb
  | succ k ih =>
    intro s b hs hb
    cases s with
    | nil => simp [scanChunksAux] at hb
    | cons c t =>
      cases hq : m (c :: t) with
      | some n =>
        have hp := hm _ _ hq
        have hn : n ≤ (c :: t).length := hle _ _ hq
        simp only [scanChunksAux, hq, List.mem_cons] at hb
        rcases hb with hb | hb
        · simp only [Sum.inr.injEq] at hb
          subst hb
          refine ⟨[], List.drop n (c :: t), ?_, ?_⟩
          · simp [List.take_append_drop]
          · rw [List.take_append_drop, hq]
            congr 1
            rw [List.length_take]
            omega
        · have := ih (List.drop n (c :: t)) b ?_ hb
          · rcases this with ⟨u, v, huv, hmv⟩
            refine ⟨List.take n (c :: t) ++ u, v, ?_, hmv⟩
            have hassoc : List.take n (c :: t) ++ u ++ b ++ v
                = List.take n (c :: t) ++ (u ++ b ++ v) := by
              simp [List.append_assoc]
            rw [hassoc, ← huv, List.take_append_drop]
          · simp only [List.length_drop, List.length_cons]
            simp only [List.length_cons] at hs
            omega
      | none =>
        simp only [scanChunksAux, hq, List.mem_cons] at hb
        rcases hb with hb | hb
        · exact absurd hb (by simp)
        · have := ih t b ?_ hb
          · rcases this with ⟨u, v, huv, hmv⟩
            exact ⟨c :: u, v, by rw [huv]; rfl, hmv⟩
          · simp only [List.length_cons] at hs
            omega

theorem scanChunks_inr_mem (m : Str → Option Nat)
    (hm : ∀ s n, m s = some n → 0 < n)
    (hle : ∀ s n, m s = some n → n ≤ s.length) (s b : Str)
    (hb : Sum.inr b ∈ scanChunks m s) :
    ∃ u v, s = u ++ b ++ v ∧ m (b ++ v) = some b.length :=
  scanChunks_inr_mem_fuel m hm hle s.length s b (Nat.le_refl _) hb

theorem scanChunks_complete_fuel (m : Str → Option Nat)
    (hnil : m [] = none) :
    ∀ (fuel : Nat) (s : Str), s.length ≤ fuel →
      (∀ b, Sum.inr b ∉ scanChunksAux m fuel s) →
      ∀ i, m (s.drop i) = none := by
  intro fuel
  induction fuel with
  | zero =>
    intro s hs _ i
    have : s = [] := List.length_eq_zero.mp (Nat.le_zero.mp hs)
    subst this
    simpa using hnil
  | succ k ih =>
    intro s hs hno i
    cases s with
    | nil => simpa using hnil
    | cons c t =>
      cases hq : m (c :: t) with
      | some n =>
        exfalso
        apply hno (List.take n (c :: t))
        simp [scanChunksAux, hq]
      | none =>
        cases i with
        | zero => simpa using hq
        | succ j =>
          have hno' : ∀ b, Sum.inr b ∉ scanChunksAux m k t := by
            intro b hb
            apply hno b
            simp [scanChunksAux, hq, hb]
          have := ih t ?_ hno' j
          · simpa using this
          · simp only [List.length_cons] at hs
            omega

theorem scanChunks_complete (m : Str → Option Nat)
    (hnil : m [] = none) (s : Str)
    (hno : ∀ b, Sum.inr b ∉ scanChunks m s) (i : Nat) :
    m (s.drop i) = none :=
  scanChunks_complete_fuel m hnil s.length s (Nat.le_refl _) hno i

theorem ciStarts_intro (pat pfx rest : Str)
    (h : pfx.map Char.toLower = pat.map Char.toLower) :
    ciStarts pat (pfx ++ rest) = true := by
  induction pat generalizing pfx with
  | nil => rfl
  | cons p ps ih =>
    cases pfx with
    | nil => simp at h
    | cons x xs =>
      simp only [List.map_cons, List.cons.injEq] at h
      simp only [List.cons_append, ciStarts, Bool.and_eq_true]
      exact ⟨by simp [lowEq, h.1], ih xs h.2⟩

theorem ciStarts_elim {pat s : Str} (h : ciStarts pat s = true) :
    ∃ pfx rest, s = pfx ++ rest ∧ pfx.map Char.toLower = pat.map Char.toLower
      ∧ pfx.length = pat.length := by
  induction pat generalizing s with
  | nil => exact ⟨[], s, rfl, rfl, rfl⟩
  | cons p ps ih =>
    cases s with
    | nil => simp [ciStarts] at h
    | cons c cs =>
      simp only [ciStarts, Bool.and_eq_true] at h
      rcases ih h.2 with ⟨pfx, rest, hcs, hmap, hlen⟩
      refine ⟨c :: pfx, rest, by rw [hcs]; rfl, ?_, by simp [hlen]⟩
      simp only [List.map_cons, hmap, List.cons.injEq]
      have := h.1
      simp only [lowEq, beq_iff_eq] at this
      exact ⟨this.symm, trivial⟩

theorem findChar_none_iff (p : Char → Bool) (s : Str) :
    findChar p s = none ↔ ∀ c ∈ s, p c = false := by
  induction s with
  | nil => simp [findChar]
  | cons c t ih =>
    simp only [findChar, List.mem_cons]
    constructor
    · intro h
      split at h
      · simp at h
      · intro x hx
        rcases hx with hx | hx
        · subst hx
          rename_i hc
          simpa using hc
        · exact (ih.mp (by simpa using h)) x hx
    · intro h
      have hc : p c = false := h c (Or.inl rfl)
      simp only [hc, Bool.false_eq_true, if_false]
      have : findChar p t = none := ih.mpr (fun x hx => h x (Or.inr hx))
      simp [this]

theorem findChar_some_elim {p : Char → Bool} {s : Str} {k : Nat}
    (h : findChar p s = some k) :
    ∃ a c b, s = a ++ c :: b ∧ a.length = k ∧ (∀ x ∈ a, p x = false)
      ∧ p c = true := by
  induction s generalizing k with
  | nil => simp [findChar] at h
  | cons c t ih =>
    simp only [findChar] at h
    split at h
    · rename_i hc
      simp only [Option.some.injEq] at h
      exact ⟨[], c, t, rfl, by simpa using h, by simp, hc⟩
    · rename_i hc
      cases hf : findChar p t with
      | none => simp [hf] at h
      | some j =>
        rw [hf] at h
        simp only [Option.map_some', Option.some.injEq] at h
        rcases ih hf with ⟨a, c', b, ht, hlen, hall, hc'⟩
        refine ⟨c :: a, c', b, by rw [ht]; rfl, by simp [hlen, h], ?_, hc'⟩
        intro x hx
        rcases List.mem_cons.mp hx with hx | hx
        · subst hx; simpa using hc
        · exact hall x hx

theorem findChar_append_intro (p : Char → Bool) (a : Str) (c : Char) (b : Str)
    (hall : ∀ x ∈ a, p x = false) (hc : p c = true) :
    findChar p (a ++ c :: b) = some a.length := by
  induction a with
  | nil => simp [findChar, hc]
  | cons x xs ih =>
    have hx : p x = false := hall x (by simp)
    simp only [List.cons_append, findChar, hx, Bool.false_eq_true, if_false,
      List.append_eq]
    rw [ih (fun y hy => hall y (by simp [hy]))]
    simp

theorem countLeading_append_intro (p : Char → Bool) (ws : Str) (c : Char)
    (r : Str) (hall : ∀ x ∈ ws, p x = true) (hc : p c = false) :
    countLeading p (ws ++ c :: r) = ws.length := by
  induction ws with
  | nil => simp [countLeading, hc]
  | cons x xs ih =>
    have hx : p x = true := hall x (by simp)
    simp only [List.cons_append, countLeading, hx, if_true, List.append_eq]
    rw [ih (fun y hy => hall y (by simp [hy]))]
    simp

/-- A piece of text matched by `font-size:\s*[^;]+;` under `re.IGNORECASE`:
the property name in any letter case, then at least one character (none of
them `;`), closed by `;`. -/
def IsFSMatch (d : Str) : Prop :=
  ∃ pfx mid, d = pfx ++ mid ++ [';']
    ∧ pfx.map Char.toLower = ("font-size:").data
    ∧ mid ≠ [] ∧ ';' ∉ mid

/-- A piece of text matched by `QWidget\s*\{[^}]+\}` under `re.IGNORECASE`:
the selector in any letter case, optional whitespace, then a braced body of
at least one character containing no closing brace. -/
def IsQWBlock (b : Str) : Prop :=
  ∃ pfx ws body, b = pfx ++ ws ++ '\x7b' :: (body ++ ['\x7d'])
    ∧ pfx.map Char.toLower = ("qwidget").data
    ∧ (∀ c ∈ ws, isPySpace c = true)
    ∧ body ≠ [] ∧ '\x7d' ∉ body

theorem matchFS_sound {s : Str} {n : Nat} (h : matchFS s = some n) :
    IsFSMatch (s.take n) := by
  unfold matchFS at h
  split at h
  · rename_i hci
    rcases ciStarts_elim hci with ⟨pfx, rest, hs, hmap, hlen⟩
    have hpat : (("font-size:").data).map Char.toLower = ("font-size:").data := by
      decide
    rw [hpat] at hmap
    have hlen10 : pfx.length = 10 := by rw [hlen]; rfl
    split at h
    · rename_i k hk
      split at h
      · exact absurd h (by simp)
      · rename_i hk0
        simp only [Option.some.injEq] at h
        have hdrop : s.drop 10 = rest := by
          rw [hs, ← hlen10, List.drop_left]
        rw [hdrop] at hk
        rcases findChar_some_elim hk with ⟨a, c, b, hrest, halen, hanone, hc⟩
        have hcsemi : c = ';' := by simpa using hc
        subst hcsemi
        refine ⟨pfx, a, ?_, hmap, ?_, ?_⟩
        · rw [hs, hrest, ← h]
          have h1 : 10 + k + 1 = pfx.length + (k + 1) := by omega
          rw [h1, List.take_append]
          have h2 : k + 1 = a.length + 1 := by omega
          rw [h2, List.take_append]
          simp [List.append_assoc]
        · intro hnil
          subst hnil
          simp at halen
          omega
        · intro hmem
          have := hanone ';' hmem
          simp at this
    · exact absurd h (by simp)
  · exact absurd h (by simp)

theorem matchFS_complete {d : Str} (hd : IsFSMatch d) (v : Str) :
    matchFS (d ++ v) = some d.length := by
  rcases hd with ⟨pfx, mid, hdecomp, hmap, hmid, hsemi⟩
  have hlen10 : pfx.length = 10 := by
    have := congrArg List.length hmap
    simpa using this
  have hform : d ++ v = pfx ++ (mid ++ ';' :: v) := by
    rw [hdecomp]
    simp
  unfold matchFS
  have hci : ciStarts (("font-size:").data) (d ++ v) = true := by
    rw [hform]
    apply ciStarts_intro
    rw [hmap]
    decide
  rw [hci]
  simp only [if_true]
  have hdrop : (d ++ v).drop 10 = mid ++ ';' :: v := by
    rw [hform, ← hlen10, List.drop_left]
  rw [hdrop]
  have hfind : findChar (fun c => c == ';') (mid ++ ';' :: v) = some mid.length := by
    apply findChar_append_intro
    · intro x hx
      simp only [beq_eq_false_iff_ne, ne_eq]
      intro hxe
      exact hsemi (hxe ▸ hx)
    · simp
  rw [hfind]
  have hmidlen : mid.length ≠ 0 := by
    intro h0
    exact hmid (List.length_eq_zero.mp h0)
  simp only [hmidlen, if_false]
  congr 1
  rw [hdecomp]
  simp [hlen10]
  omega

theorem countLeading_split (p : Char → Bool) (s : Str) :
    ∃ ws rest, s = ws ++ rest ∧ ws.length = countLeading p s
      ∧ ∀ x ∈ ws, p x = true := by
  induction s with
  | nil => exact ⟨[], [], rfl, rfl, by simp⟩
  | cons c t ih =>
    by_cases hc : p c = true
    · rcases ih with ⟨ws, rest, h1, h2, h3⟩
      refine ⟨c :: ws, rest, by rw [h1]; rfl, ?_, ?_⟩
      · simp [countLeading, hc, h2]
      · intro x hx
        rcases List.mem_cons.mp hx with hx | hx
        · subst hx; exact hc
        · exact h3 x hx
    · have hc' : p c = false := by
        revert hc
        cases p c
        · simp
        · simp
      refine ⟨[], c :: t, rfl, ?_, by simp⟩
      simp [countLeading, hc']

theorem matchQW_sound {s : Str} {n : Nat} (h : matchQW s = some n) :
    IsQWBlock (s.take n) := by
  unfold matchQW at h
  split at h
  · rename_i hci
    rcases ciStarts_elim hci with ⟨pfx, rest, hs, hmap, hlen⟩
    have hpat : (("qwidget").data).map Char.toLower = ("qwidget").data := by
      decide
    rw [hpat] at hmap
    have hlen7 : pfx.length = 7 := by rw [hlen]; rfl
    have hdrop7 : s.drop 7 = rest := by
      rw [hs, ← hlen7, List.drop_left]
    split at h
    · rename_i c0 body hbody
      split at h
      · rename_i hc0
        split at h
        · rename_i k hk
          split at h
          · exact absurd h (by simp)
          · rename_i hk0
            simp only [Option.some.injEq] at h
            subst hc0
            rw [hdrop7] at hbody h
            rcases countLeading_split isPySpace rest with ⟨ws, rest2, hr, hwlen, hwall⟩
            have hrest2 : rest2 = '\x7b' :: body := by
              rw [← hwlen] at hbody
              rw [hr] at hbody
              rwa [List.drop_left] at hbody
            rcases findChar_some_elim hk with ⟨a, c, b, hbody2, halen, hanone, hc⟩
            have hcbr : c = '\x7d' := by simpa using hc
            subst hcbr
            refine ⟨pfx, ws, a, ?_, hmap, hwall, ?_, ?_⟩
            · rw [hs, hr, hrest2, hbody2, ← h]
              have h1 : 7 + countLeading isPySpace rest + 1 + k + 1
                  = pfx.length + (ws.length + (k + 2)) := by
                rw [hlen7, hwlen]
                omega
              rw [h1, List.take_append, List.take_append]
              have h2 : k + 2 = (k + 1) + 1 := rfl
              rw [h2, List.take_succ_cons]
              have h3 : k + 1 = a.length + 1 := by omega
              rw [h3, List.take_append]
              simp [List.append_assoc]
            · intro hnil
              subst hnil
              simp at halen
              omega
            · intro hmem
              have := hanone '\x7d' hmem
              simp at this
        · exact absurd h (by simp)
      · exact absurd h (by simp)
    · exact absurd h (by simp)
  · exact absurd h (by simp)

theorem matchQW_complete {b : Str} (hb : IsQWBlock b) (v : Str) :
    matchQW (b ++ v) = some b.length := by
  rcases hb with ⟨pfx, ws, body, hdecomp, hmap, hws, hbody, hbr⟩
  have hlen7 : pfx.length = 7 := by
    have := congrArg List.length hmap
    simpa using this
  have hform : b ++ v = pfx ++ (ws ++ '\x7b' :: (body ++ '\x7d' :: v)) := by
    rw [hdecomp]
    simp
  unfold matchQW
  have hci : ciStarts (("qwidget").data) (b ++ v) = true := by
    rw [hform]
    apply ciStarts_intro
    rw [hmap]
    decide
  rw [hci]
  simp only [if_true]
  have hdrop7 : (b ++ v).drop 7 = ws ++ '\x7b' :: (body ++ '\x7d' :: v) := by
    rw [hform, ← hlen7, List.drop_left]
  rw [hdrop7]
  have hcl : countLeading isPySpace (ws ++ '\x7b' :: (body ++ '\x7d' :: v))
      = ws.length := by
    apply countLeading_append_intro
    · exact hws
    · decide
  rw [hcl]
  rw [List.drop_left]
  have hfind : findChar (fun x => x == '\x7d') (body ++ '\x7d' :: v)
      = some body.length := by
    apply findChar_append_intro
    · intro x hx
      simp only [beq_eq_false_iff_ne, ne_eq]
      intro hxe
      exact hbr (hxe ▸ hx)
    · simp
  dsimp only
  rw [if_pos rfl]
  rw [hfind]
  have hblen : body.length ≠ 0 := by
    intro h0
    exact hbody (List.length_eq_zero.mp h0)
  simp only [hblen, if_false]
  congr 1
  rw [hdecomp]
  simp [hlen7]
  omega

theorem matchFS_nil : matchFS [] = none := by decide

theorem matchQW_nil : matchQW [] = none := by decide

/-- `re.sub(r'font-size:\s*[^;]+;', repl, content, flags=re.IGNORECASE)`
with a constant replacement, as both helpers in `apply_styles` use it. -/
def subFontSize (repl content : Str) : Str :=
  scanSub matchFS (fun _ => repl) content

/-- `remove_font_size` from `apply_styles` (UIPresetLoader.py lines
102-104): delete every match of the font-size pattern in the block text. -/
def remove_font_size (content : Str) : Str := subFontSize [] content

/-- `replace_font_size` from `apply_styles` (UIPresetLoader.py lines
109-114): if the block text contains the (case-sensitive) substring
`font-size:`, replace every (case-insensitive) match of the font-size
pattern by `font-size: <size>;`; otherwise drop the final character (the
closing brace) and append ` font-size: <size>; }`. -/
def replace_font_size (font_size content : Str) : Str :=
  if strContains (("font-size:").data) content then
    subFontSize ((("font-size: ").data) ++ font_size ++ [';']) content
  else
    content.dropLast ++ ((" font-size: ").data) ++ font_size ++ (("; \x7d").data)

/-- The font-size transform of `apply_styles` (UIPresetLoader.py lines
100-116): rewrite every match of `QWidget\s*\{[^}]+\}` in the stylesheet,
with `remove_font_size` under the `Auto` policy and with
`replace_font_size` under any other policy. -/
def modify_font_size (font_size style_sheet : Str) : Str :=
  if font_size = (("Auto").data) then
    scanSub matchQW remove_font_size style_sheet
  else
    scanSub matchQW (replace_font_size font_size) style_sheet

instance : BEq (Char ⊕ Str) := instBEqOfDecidableEq

/-- The QWidget-block decomposition of a stylesheet text: the segments the
outer `re.sub` of `apply_styles` matches, interleaved with the characters
it leaves alone. -/
def outerChunks (s : Str) : List (Char ⊕ Str) := scanChunks matchQW s

/-- The font-size-declaration decomposition of a block text: the segments
the inner `re.sub` of `apply_styles` matches. -/
def innerChunks (s : Str) : List (Char ⊕ Str) := scanChunks matchFS s

/-- The text contains a font-size declaration: some substring is a match
of the (case-insensitive) font-size pattern. -/
def HasFSDecl (b : Str) : Prop := ∃ u d v, b = u ++ d ++ v ∧ IsFSMatch d

theorem outerChunks_join (s : Str) : (outerChunks s).flatMap chunkStr = s :=
  scanChunks_join matchQW (fun _ _ h => matchQW_pos h) s

theorem innerChunks_join (s : Str) : (innerChunks s).flatMap chunkStr = s :=
  scanChunks_join matchFS (fun _ _ h => matchFS_pos h) s

theorem outerChunks_blocks {s b : Str} (hb : Sum.inr b ∈ outerChunks s) :
    IsQWBlock b := by
  rcases scanChunks_inr_mem matchQW (fun _ _ h => matchQW_pos h)
      (fun _ _ h => matchQW_le h) s b hb with ⟨u, v, _, hm⟩
  have := matchQW_sound hm
  rwa [List.take_left] at this

theorem innerChunks_decls {b d : Str} (hd : Sum.inr d ∈ innerChunks b) :
    IsFSMatch d := by
  rcases scanChunks_inr_mem matchFS (fun _ _ h => matchFS_pos h)
      (fun _ _ h => matchFS_le h) b d hd with ⟨u, v, _, hm⟩
  have := matchFS_sound hm
  rwa [List.take_left] at this

theorem innerChunks_exists_decl {b : Str} (h : HasFSDecl b) :
    ∃ d, Sum.inr d ∈ innerChunks b := by
  by_contra hno
  push_neg at hno
  rcases h with ⟨u, d, v, hb, hfs⟩
  have hall := scanChunks_complete matchFS matchFS_nil b hno u.length
  rw [hb, List.append_assoc, List.drop_left] at hall
  rw [matchFS_complete hfs v] at hall
  exact absurd hall (by simp)

theorem strContains_iff (p s : Str) :
    strContains p s = true ↔ ∃ u v, s = u ++ p ++ v := by
  induction s with
  | nil =>
    simp only [strContains]
    constructor
    · intro h
      have hp : p = [] := by
        cases p
        · rfl
        · simp [List.isEmpty] at h
      exact ⟨[], [], by simp [hp]⟩
    · rintro ⟨u, v, huv⟩
      have hl := congrArg List.length huv
      simp only [List.length_nil, List.length_append] at hl
      have hp : p = [] := List.length_eq_zero.mp (by omega)
      simp [hp, List.isEmpty]
  | cons c t ih =>
    simp only [strContains, Bool.or_eq_true, ih]
    constructor
    · rintro (hpre | ⟨u, v, huv⟩)
      · rcases List.isPrefixOf_iff_prefix.mp hpre with ⟨w, hw⟩
        exact ⟨[], w, by rw [← hw]; rfl⟩
      · exact ⟨c :: u, v, by rw [huv]; rfl⟩
    · rintro ⟨u, v, huv⟩
      cases u with
      | nil =>
        left
        apply List.isPrefixOf_iff_prefix.mpr
        simp only [List.nil_append] at huv
        rw [huv]
        exact ⟨v, rfl⟩
      | cons x xs =>
        right
        refine ⟨xs, v, ?_⟩
        have : c :: t = x :: (xs ++ p ++ v) := by
          rw [huv]; rfl
        injection this with h1 h2

/-- C7 (counterexample): a stylesheet whose only rule block has selector
`QLabel` — but whose block body contains, inside a quoted url, text that the
fixed `QWidget` pattern matches.  The transform rewrites that region, so the
QLabel rule block is not left byte-for-byte unchanged, refuting the claim
that blocks with a non-matching selector are never touched. -/
theorem c7_counterexample :
    modify_font_size (("12pt").data)
        (("QLabel \x7b background: url(\"QWidget \x7b x \x7d.png\"); \x7d").data)
      = (("QLabel \x7b background: url(\"QWidget \x7b x  font-size: 12pt; \x7d.png\"); \x7d").data)
    ∧ modify_font_size (("12pt").data)
        (("QLabel \x7b background: url(\"QWidget \x7b x \x7d.png\"); \x7d").data)
      ≠ (("QLabel \x7b background: url(\"QWidget \x7b x \x7d.png\"); \x7d").data) := by
  constructor
  · decide
  · decide

/-- C7 (amended): the transform rewrites exactly the maximal regions of the
stylesheet text matched by the fixed `QWidget\s*\{[^}]+\}` pattern; every
character outside a matched region — in particular every rule block no part
of which is covered by a match — is preserved byte-for-byte, under the
`Auto` policy and under any concrete policy alike.  A stylesheet with no
match at all is returned unchanged. -/
theorem c7_amended_nonmatching_preserved (p s : Str) :
    (outerChunks s).flatMap chunkStr = s
    ∧ (∀ ch ∈ outerChunks s, ∀ b, ch = Sum.inr b → IsQWBlock b)
    ∧ modify_font_size p s
        = (outerChunks s).flatMap (chunkSub
            (fun b => if p = (("Auto").data) then remove_font_size b
                      else replace_font_size p b))
    ∧ ((outerChunks s).all (fun ch => ch.isLeft) = true →
        modify_font_size p s = s) := by
  have hrender : modify_font_size p s
      = (outerChunks s).flatMap (chunkSub
          (fun b => if p = (("Auto").data) then remove_font_size b
                    else replace_font_size p b)) := by
    by_cases hp : p = (("Auto").data)
    · rw [modify_font_size, if_pos hp,
        scanSub_eq_chunks matchQW (fun _ _ h => matchQW_pos h)]
      apply List.flatMap_congr
      intro ch _
      cases ch with
      | inl c => rfl
      | inr b => simp [chunkSub, hp]
    · rw [modify_font_size, if_neg hp,
        scanSub_eq_chunks matchQW (fun _ _ h => matchQW_pos h)]
      apply List.flatMap_congr
      intro ch _
      cases ch with
      | inl c => rfl
      | inr b => simp [chunkSub, hp]
  refine ⟨outerChunks_join s, ?_, hrender, ?_⟩
  · intro ch hch b hchb
    subst hchb
    exact outerChunks_blocks hch
  · intro hall
    rw [hrender]
    have hcongr : ∀ ch ∈ outerChunks s,
        chunkSub (fun b => if p = (("Auto").data) then remove_font_size b
                           else replace_font_size p b) ch = chunkStr ch := by
      intro ch hch
      cases ch with
      | inl c => rfl
      | inr b =>
        have := List.all_eq_true.mp hall _ hch
        simp [Sum.isLeft] at this
    rw [List.flatMap_congr hcongr, outerChunks_join]

/-- C7 (amended, witness): a stylesheet whose text contains no match of the
pattern — a QLabel rule block — passes through the transform unchanged. -/
theorem c7_amended_witness :
    modify_font_size (("12pt").data) (("QLabel \x7b color: red; \x7d").data)
      = (("QLabel \x7b color: red; \x7d").data) :=
  (c7_amended_nonmatching_preserved (("12pt").data)
    (("QLabel \x7b color: red; \x7d").data)).2.2.2 (by decide)

/-- C1 (counterexample): the stylesheet `QWidget { FONT-SIZE: 10pt; }` has a
QWidget rule block (matched by the transform) with an existing font-size
declaration, written in upper case — the code's own case-insensitive
pattern recognises it, and the `Auto` policy would strip it.  Yet with the
concrete policy `12pt` the code's case-sensitive guard `'font-size:' in
content` fails, so instead of replacing the declaration's value it appends
a second declaration: the old value `10pt` survives in the output. -/
theorem c1_counterexample :
    Sum.inr (("QWidget \x7b FONT-SIZE: 10pt; \x7d").data)
        ∈ outerChunks (("QWidget \x7b FONT-SIZE: 10pt; \x7d").data)
    ∧ HasFSDecl (("QWidget \x7b FONT-SIZE: 10pt; \x7d").data)
    ∧ modify_font_size (("12pt").data) (("QWidget \x7b FONT-SIZE: 10pt; \x7d").data)
      = (("QWidget \x7b FONT-SIZE: 10pt;  font-size: 12pt; \x7d").data)
    ∧ strContains (("FONT-SIZE: 10pt;").data)
        (modify_font_size (("12pt").data)
          (("QWidget \x7b FONT-SIZE: 10pt; \x7d").data)) = true := by
  refine ⟨by decide, ?_, by decide, by decide⟩
  exact ⟨(("QWidget \x7b ").data), (("FONT-SIZE: 10pt;").data), ((" \x7d").data),
    by decide, (("FONT-SIZE:").data), ((" 10pt").data),
    by decide, by decide, by decide, by decide⟩

/-- C1 (amended): for a stylesheet with a matched QWidget rule block that
contains a font-size declaration: the `Auto` policy deletes every matched
declaration occurrence in the block; a concrete policy replaces every
matched occurrence with exactly `font-size: <requested>;` provided the
block contains the lower-case text `font-size:` — if the declaration is
spelled in any other letter case, the block instead gets a fresh
`font-size: <requested>;` appended before its closing brace and the
existing declaration keeps its old value.  (The hypothesis that the policy
string contains no backslash marks the model boundary: Python's
replacement-template escape processing is not modelled, and no font-size
policy of this program contains a backslash.) -/
theorem c1_amended_font_size_policy (s b fs : Str)
    (hb : Sum.inr b ∈ outerChunks s)
    (hdecl : HasFSDecl b)
    (hfs : fs ≠ (("Auto").data))
    (_hplain : '\\' ∉ fs) :
    modify_font_size (("Auto").data) s
        = (outerChunks s).flatMap (chunkSub remove_font_size)
    ∧ remove_font_size b = (innerChunks b).flatMap (chunkSub (fun _ => []))
    ∧ (∃ d, Sum.inr d ∈ innerChunks b)
    ∧ (∀ d, Sum.inr d ∈ innerChunks b → IsFSMatch d)
    ∧ (innerChunks b).flatMap chunkStr = b
    ∧ modify_font_size fs s
        = (outerChunks s).flatMap (chunkSub (replace_font_size fs))
    ∧ (strContains (("font-size:").data) b = true →
        replace_font_size fs b
          = (innerChunks b).flatMap
              (chunkSub (fun _ => (("font-size: ").data) ++ fs ++ [';'])))
    ∧ (strContains (("font-size:").data) b = false →
        replace_font_size fs b
          = b.dropLast ++ ((" font-size: ").data) ++ fs ++ (("; \x7d").data)) := by
  refine ⟨?_, ?_, innerChunks_exists_decl hdecl, fun d hd => innerChunks_decls hd,
    innerChunks_join b, ?_, ?_, ?_⟩
  · rw [modify_font_size, if_pos rfl,
      scanSub_eq_chunks matchQW (fun _ _ h => matchQW_pos h)]
    rfl
  · rw [remove_font_size, subFontSize,
      scanSub_eq_chunks matchFS (fun _ _ h => matchFS_pos h)]
    rfl
  · rw [modify_font_size, if_neg hfs,
      scanSub_eq_chunks matchQW (fun _ _ h => matchQW_pos h)]
    rfl
  · intro hcontains
    rw [replace_font_size, if_pos hcontains, subFontSize,
      scanSub_eq_chunks matchFS (fun _ _ h => matchFS_pos h)]
    rfl
  · intro hnone
    rw [replace_font_size, if_neg (by simp [hnone])]

/-- C1 (amended, witness): on `QWidget { font-size: 10pt; }` the `Auto`
policy strips the declaration and the `12pt` policy replaces its value with
exactly `12pt`. -/
theorem c1_amended_witness :
    remove_font_size (("QWidget \x7b font-size: 10pt; \x7d").data)
      = (("QWidget \x7b  \x7d").data)
    ∧ replace_font_size (("12pt").data)
        (("QWidget \x7b font-size: 10pt; \x7d").data)
      = (("QWidget \x7b font-size: 12pt; \x7d").data) := by
  have h := c1_amended_font_size_policy
    (("QWidget \x7b font-size: 10pt; \x7d").data)
    (("QWidget \x7b font-size: 10pt; \x7d").data)
    (("12pt").data)
    (by decide)
    ⟨(("QWidget \x7b ").data), (("font-size: 10pt;").data), ((" \x7d").data),
      by decide, (("font-size:").data), ((" 10pt").data),
      by decide, by decide, by decide, by decide⟩
    (by decide) (by decide)
  exact ⟨h.2.1.trans (by decide), (h.2.2.2.2.2.2.1 (by decide)).trans (by decide)⟩

/-- A settings document: the flat string-to-string mapping the program
stores, with keys in insertion order, as a Python dict holds it. -/
abbrev Settings := List (Str × Str)

/-- The four whitespace characters Python's json module skips between
tokens. -/
def isJsonWs (c : Char) : Bool := c == ' ' || c == '\t' || c == '\n' || c == '\r'

def skipWs (s : Str) : Str := s.dropWhile isJsonWs

/-- Hex digit character for `n % 16`, lower case, as `json.dump` emits. -/
def hexDigitChar (n : Nat) : Char :=
  if n < 10 then Char.ofNat (48 + n) else Char.ofNat (87 + n)

def toHex4 (n : Nat) : Str :=
  [hexDigitChar (n / 4096 % 16), hexDigitChar (n / 256 % 16),
   hexDigitChar (n / 16 % 16), hexDigitChar (n % 16)]

/-- Python `json.dump`'s escaping of one character (default
`ensure_ascii=True`): the two-character escapes for quote, backslash and
the named control characters, `\uXXXX` for other control and non-ASCII
characters, and a surrogate pair for characters beyond the basic
multilingual plane. -/
def escChar (c : Char) : Str :=
  if c = '"' then ['\\', '"']
  else if c = '\\' then ['\\', '\\']
  else if c = '\n' then ['\\', 'n']
  else if c = '\r' then ['\\', 'r']
  else if c = '\t' then ['\\', 't']
  else if c = '\x08' then ['\\', 'b']
  else if c = '\x0c' then ['\\', 'f']
  else if c.toNat < 0x20 then '\\' :: 'u' :: toHex4 c.toNat
  else if c.toNat ≤ 0x7e then [c]
  else if c.toNat ≤ 0xffff then '\\' :: 'u' :: toHex4 c.toNat
  else
    ('\\' :: 'u' :: toHex4 (0xd800 + (c.toNat - 0x10000) / 0x400))
      ++ ('\\' :: 'u' :: toHex4 (0xdc00 + (c.toNat - 0x10000) % 0x400))

/-- A JSON string literal for `s`, quotes included. -/
def encStr (s : Str) : Str := '"' :: (s.flatMap escChar ++ ['"'])

def joinComma : List Str → Str
  | [] => []
  | [x] => x
  | x :: y :: t => x ++ ((", ").data) ++ joinComma (y :: t)

/-- One `"key": "value"` member of the serialized object. -/
def encEntry (kv : Str × Str) : Str :=
  encStr kv.1 ++ ((": ").data) ++ encStr kv.2

/-- `json.dump` of a flat string-to-string mapping (default separators
`', '` and `': '`), as `save_settings` writes it. -/
def json_dumps (m : Settings) : Str :=
  '\x7b' :: (joinComma (m.map encEntry) ++ ['\x7d'])

def hexVal (c : Char) : Option Nat :=
  if '0' ≤ c ∧ c ≤ '9' then some (c.toNat - 48)
  else if 'a' ≤ c ∧ c ≤ 'f' then some (c.toNat - 87)
  else if 'A' ≤ c ∧ c ≤ 'F' then some (c.toNat - 55)
  else none

/-- One escape sequence after a backslash, as Python's json decoder reads
it: the short escapes, or `\uXXXX` with a mandatory matching low surrogate
after a high surrogate.  (Python tolerates lone surrogates, producing
strings no well-formed Unicode string equals; such content never arises
from `json.dump` of well-formed strings and is modelled as an error.) -/
def parseEsc : Str → Except String (Char × Str)
  | [] => .error "Unterminated string"
  | c :: rest =>
    if c = 'u' then
      match rest with
      | a :: b :: c2 :: d :: rest2 =>
        match hexVal a, hexVal b, hexVal c2, hexVal d with
        | some va, some vb, some vc, some vd =>
          if 0xd800 ≤ va * 4096 + vb * 256 + vc * 16 + vd
              ∧ va * 4096 + vb * 256 + vc * 16 + vd ≤ 0xdbff then
            match rest2 with
            | e1 :: e2 :: a2 :: b2 :: c3 :: d2 :: rest3 =>
              if e1 = '\\' ∧ e2 = 'u' then
                match hexVal a2, hexVal b2, hexVal c3, hexVal d2 with
                | some wa, some wb, some wc, some wd =>
                  if 0xdc00 ≤ wa * 4096 + wb * 256 + wc * 16 + wd
                      ∧ wa * 4096 + wb * 256 + wc * 16 + wd ≤ 0xdfff then
                    .ok (Char.ofNat (0x10000
                      + (va * 4096 + vb * 256 + vc * 16 + vd - 0xd800) * 0x400
                      + (wa * 4096 + wb * 256 + wc * 16 + wd - 0xdc00)), rest3)
                  else .error "Unpaired high surrogate"
                | _, _, _, _ => .error "Invalid \\uXXXX escape"
              else .error "Unpaired high surrogate"
            | _ => .error "Unpaired high surrogate"
          else if 0xdc00 ≤ va * 4096 + vb * 256 + vc * 16 + vd
              ∧ va * 4096 + vb * 256 + vc * 16 + vd ≤ 0xdfff then
            .error "Unpaired low surrogate"
          else .ok (Char.ofNat (va * 4096 + vb * 256 + vc * 16 + vd), rest2)
        | _, _, _, _ => .error "Invalid \\uXXXX escape"
      | _ => .error "Invalid \\uXXXX escape"
    else if c = '"' then .ok ('"', rest)
    else if c = '\\' then .ok ('\\', rest)
    else if c = '/' then .ok ('/', rest)
    else if c = 'b' then .ok ('\x08', rest)
    else if c = 'f' then .ok ('\x0c', rest)
    else if c = 'n' then .ok ('\n', rest)
    else if c = 'r' then .ok ('\r', rest)
    else if c = 't' then .ok ('\t', rest)
    else .error "Invalid escape"

/-- The body of a JSON string literal after the opening quote, with a
structural recursion budget (a budget of the input length never runs
out, since every step consumes at least one character). -/
def parseStrBodyAux : Nat → Str → Except String (Str × Str)
  | 0, _ => .error "Unterminated string"
  | _, [] => .error "Unterminated string"
  | fuel + 1, c :: rest =>
    if c = '"' then .ok ([], rest)
    else if c = '\\' then
      match parseEsc rest with
      | .ok (ch, rest2) =>
        match parseStrBodyAux fuel rest2 with
        | .ok (body, rest3) => .ok (ch :: body, rest3)
        | .error e => .error e
      | .error e => .error e
    else if c.toNat < 0x20 then .error "Invalid control character"
    else
      match parseStrBodyAux fuel rest with
      | .ok (body, rest3) => .ok (c :: body, rest3)
      | .error e => .error e

def parseStrBody (s : Str) : Except String (Str × Str) :=
  parseStrBodyAux s.length s

/-- A JSON string literal, quotes included. -/
def parseString : Str → Except String (Str × Str)
  | [] => .error "Expecting string"
  | c :: rest => if c = '"' then parseStrBody rest else .error "Expecting string"

/-- The members of a JSON object, positioned at the start of the first
key, through the closing brace; pairs are returned in document order.
The budget decreases once per member and the input by several characters,
so a budget of the input length never runs out. -/
def parsePairsAux : Nat → Str → Except String (List (Str × Str) × Str)
  | 0, _ => .error "Unterminated object"
  | fuel + 1, s =>
    match parseString s with
    | .error e => .error e
    | .ok (k, r1) =>
      match skipWs r1 with
      | c :: r3 =>
        if c = ':' then
          match parseString (skipWs r3) with
          | .error e => .error e
          | .ok (v, r4) =>
            match skipWs r4 with
            | c2 :: r6 =>
              if c2 = ',' then
                match parsePairsAux fuel (skipWs r6) with
                | .ok (ps, r7) => .ok ((k, v) :: ps, r7)
                | .error e => .error e
              else if c2 = '\x7d' then .ok ([(k, v)], r6)
              else .error "Expecting delimiter"
            | [] => .error "Expecting delimiter"
        else .error "Expecting colon delimiter"
      | [] => .error "Expecting colon delimiter"

def parsePairs (s : Str) : Except String (List (Str × Str) × Str) :=
  parsePairsAux s.length s

/-- Python dict assignment `d[k] = v`: replace the value at `k` in place
if the key is present, else append the new entry. -/
def insertEntry (k v : Str) (d : Settings) : Settings :=
  if d.any (fun kv => kv.1 == k) then
    d.map (fun kv => if kv.1 == k then (k, v) else kv)
  else d ++ [(k, v)]

/-- Python `json.load`, restricted to the JSON documents this program ever
writes: one object with string keys and string values (duplicate keys
resolved like dict construction: last value wins, first position kept).
Any other text — in particular malformed JSON — is an error, as
`json.load` raises.  (`json.load` accepts other top-level JSON values; the
settings file is only ever written by `save_settings`, which produces
exactly this shape.) -/
def json_loads (s : Str) : Except String Settings :=
  match skipWs s with
  | c :: r1 =>
    if c = '\x7b' then
      match skipWs r1 with
      | c2 :: r2 =>
        if c2 = '\x7d' then
          if skipWs r2 = [] then .ok [] else .error "Extra data"
        else
          match parsePairs (c2 :: r2) with
          | .ok (pairs, r3) =>
            if skipWs r3 = [] then
              .ok (pairs.foldl (fun d kv => insertEntry kv.1 kv.2 d) [])
            else .error "Extra data"
          | .error e => .error e
      | [] => .error "Expecting property name"
    else .error "Expecting value"
  | [] => .error "Expecting value"

theorem hexVal_hexDigitChar : ∀ k, k < 16 → hexVal (hexDigitChar k) = some k := by
  decide

theorem char_valid_ranges (c : Char) :
    c.toNat < 0xd800 ∨ (0xdfff < c.toNat ∧ c.toNat < 0x110000) := by
  have h := c.valid
  simpa only [UInt32.isValidChar, Nat.isValidChar, Char.toNat] using h

theorem parseEsc_u (n : Nat) (hn : n < 0x10000)
    (hns : ¬ (0xd800 ≤ n ∧ n ≤ 0xdfff)) (rest : Str) :
    parseEsc ('u' :: (toHex4 n ++ rest)) = .ok (Char.ofNat n, rest) := by
  have h1 := hexVal_hexDigitChar (n / 4096 % 16) (Nat.mod_lt _ (by norm_num))
  have h2 := hexVal_hexDigitChar (n / 256 % 16) (Nat.mod_lt _ (by norm_num))
  have h3 := hexVal_hexDigitChar (n / 16 % 16) (Nat.mod_lt _ (by norm_num))
  have h4 := hexVal_hexDigitChar (n % 16) (Nat.mod_lt _ (by norm_num))
  simp only [toHex4, List.cons_append, List.nil_append, parseEsc]
  simp only [if_true]
  simp only [h1, h2, h3, h4]
  have hval : n / 4096 % 16 * 4096 + n / 256 % 16 * 256 + n / 16 % 16 * 16 + n % 16
      = n := by omega
  rw [hval]
  rw [if_neg (fun hx => hns ⟨hx.1, by omega⟩)]
  rw [if_neg (fun hx => hns ⟨by omega, hx.2⟩)]

theorem parseEsc_u_hi_lo (hi lo : Nat) (hhi1 : 0xd800 ≤ hi) (hhi2 : hi ≤ 0xdbff)
    (hlo1 : 0xdc00 ≤ lo) (hlo2 : lo ≤ 0xdfff) (rest : Str) :
    parseEsc ('u' :: (toHex4 hi ++ ('\\' :: 'u' :: (toHex4 lo ++ rest))))
      = .ok (Char.ofNat (0x10000 + (hi - 0xd800) * 0x400 + (lo - 0xdc00)), rest) := by
  have h1 := hexVal_hexDigitChar (hi / 4096 % 16) (Nat.mod_lt _ (by norm_num))
  have h2 := hexVal_hexDigitChar (hi / 256 % 16) (Nat.mod_lt _ (by norm_num))
  have h3 := hexVal_hexDigitChar (hi / 16 % 16) (Nat.mod_lt _ (by norm_num))
  have h4 := hexVal_hexDigitChar (hi % 16) (Nat.mod_lt _ (by norm_num))
  have g1 := hexVal_hexDigitChar (lo / 4096 % 16) (Nat.mod_lt _ (by norm_num))
  have g2 := hexVal_hexDigitChar (lo / 256 % 16) (Nat.mod_lt _ (by norm_num))
  have g3 := hexVal_hexDigitChar (lo / 16 % 16) (Nat.mod_lt _ (by norm_num))
  have g4 := hexVal_hexDigitChar (lo % 16) (Nat.mod_lt _ (by norm_num))
  have hval : hi / 4096 % 16 * 4096 + hi / 256 % 16 * 256 + hi / 16 % 16 * 16 + hi % 16
      = hi := by omega
  have gval : lo / 4096 % 16 * 4096 + lo / 256 % 16 * 256 + lo / 16 % 16 * 16 + lo % 16
      = lo := by omega
  simp only [toHex4, List.cons_append, List.nil_append, parseEsc]
  simp only [if_true]
  simp only [h1, h2, h3, h4]
  rw [hval]
  rw [if_pos ⟨hhi1, hhi2⟩]
  rw [if_pos ⟨trivial, trivial⟩]
  simp only [g1, g2, g3, g4]
  rw [gval]
  rw [if_pos ⟨hlo1, hlo2⟩]

theorem parseEsc_u_pair (n : Nat) (hlo : 0x10000 ≤ n) (hhi : n < 0x110000)
    (rest : Str) :
    parseEsc ('u' :: (toHex4 (0xd800 + (n - 0x10000) / 0x400)
        ++ ('\\' :: 'u' :: (toHex4 (0xdc00 + (n - 0x10000) % 0x400) ++ rest))))
      = .ok (Char.ofNat n, rest) := by
  rw [parseEsc_u_hi_lo (0xd800 + (n - 0x10000) / 0x400)
    (0xdc00 + (n - 0x10000) % 0x400)
    (by omega) (by omega) (by omega)
    (by have := Nat.mod_lt (n - 0x10000) (show 0 < 0x400 by norm_num); omega) rest]
  have harith : 0x10000 + (0xd800 + (n - 0x10000) / 0x400 - 0xd800) * 0x400
      + (0xdc00 + (n - 0x10000) % 0x400 - 0xdc00) = n := by omega
  rw [harith]

theorem parseStrBodyAux_u (fuel : Nat) (tail rest : Str) (c : Char)
    (h : parseEsc ('u' :: tail) = .ok (c, rest)) :
    parseStrBodyAux (fuel + 1) ('\\' :: 'u' :: tail)
      = match parseStrBodyAux fuel rest with
        | .ok (b, r) => .ok (c :: b, r)
        | .error e => .error e := by
  rw [parseStrBodyAux]
  rw [if_neg (by decide), if_pos rfl, h]

theorem parseStrBodyAux_escChar (c : Char) (rest : Str) (fuel : Nat) :
    parseStrBodyAux (fuel + 1) (escChar c ++ rest)
      = match parseStrBodyAux fuel rest with
        | .ok (b, r) => .ok (c :: b, r)
        | .error e => .error e := by
  have hv := char_valid_ranges c
  by_cases h1 : c = '"'
  · subst h1; rfl
  by_cases h2 : c = '\\'
  · subst h2; rfl
  by_cases h3 : c = '\n'
  · subst h3; rfl
  by_cases h4 : c = '\r'
  · subst h4; rfl
  by_cases h5 : c = '\t'
  · subst h5; rfl
  by_cases h6 : c = '\x08'
  · subst h6; rfl
  by_cases h7 : c = '\x0c'
  · subst h7; rfl
  simp only [escChar]
  rw [if_neg h1, if_neg h2, if_neg h3, if_neg h4, if_neg h5, if_neg h6, if_neg h7]
  by_cases h8 : c.toNat < 0x20
  · rw [if_pos h8]
    have hpe : parseEsc ('u' :: (toHex4 c.toNat ++ rest)) = .ok (c, rest) := by
      rw [parseEsc_u c.toNat (by omega) (by omega) rest, Char.ofNat_toNat]
    simp only [List.cons_append]
    exact parseStrBodyAux_u fuel _ rest c hpe
  rw [if_neg h8]
  by_cases h9 : c.toNat ≤ 0x7e
  · rw [if_pos h9]
    simp only [List.singleton_append]
    rw [parseStrBodyAux]
    rw [if_neg h1, if_neg h2, if_neg h8]
  rw [if_neg h9]
  by_cases h10 : c.toNat ≤ 0xffff
  · rw [if_pos h10]
    have hns : ¬ (0xd800 ≤ c.toNat ∧ c.toNat ≤ 0xdfff) := by
      rcases hv with h | h
      · exact fun hx => by omega
      · exact fun hx => by omega
    have hpe : parseEsc ('u' :: (toHex4 c.toNat ++ rest)) = .ok (c, rest) := by
      rw [parseEsc_u c.toNat (by omega) hns rest, Char.ofNat_toNat]
    simp only [List.cons_append]
    exact parseStrBodyAux_u fuel _ rest c hpe
  rw [if_neg h10]
  have hlt : c.toNat < 0x110000 := by
    rcases hv with h | h
    · omega
    · omega
  have hpe : parseEsc ('u' :: (toHex4 (0xd800 + (c.toNat - 0x10000) / 0x400)
      ++ ('\\' :: 'u' :: (toHex4 (0xdc00 + (c.toNat - 0x10000) % 0x400) ++ rest))))
      = .ok (c, rest) := by
    rw [parseEsc_u_pair c.toNat (by omega) hlt rest, Char.ofNat_toNat]
  simp only [List.cons_append, List.append_assoc]
  exact parseStrBodyAux_u fuel _ rest c hpe

set_option maxHeartbeats 1000000 in
theorem escChar_length_pos (c : Char) : 1 ≤ (escChar c).length := by
  simp only [escChar]
  split_ifs
  all_goals simp only [List.length_cons, List.length_append, toHex4,
    List.length_nil]
  all_goals omega

theorem parseStrBodyAux_enc (s : Str) : ∀ (rest : Str) (fuel : Nat),
    (s.flatMap escChar ++ '"' :: rest).length ≤ fuel →
    parseStrBodyAux fuel (s.flatMap escChar ++ '"' :: rest) = .ok (s, rest) := by
  induction s with
  | nil =>
    intro rest fuel hf
    simp only [List.flatMap_nil, List.nil_append] at hf ⊢
    cases fuel with
    | zero =>
      exfalso
      simp only [List.length_cons] at hf
      omega
    | succ k =>
      rw [parseStrBodyAux, if_pos rfl]
  | cons c t ih =>
    intro rest fuel hf
    have hlen := escChar_length_pos c
    have hshape : (c :: t).flatMap escChar ++ '"' :: rest
        = escChar c ++ (t.flatMap escChar ++ '"' :: rest) := by
      simp [List.flatMap_cons, List.append_assoc]
    rw [hshape] at hf ⊢
    cases fuel with
    | zero =>
      exfalso
      simp only [List.length_append, List.length_cons] at hf
      omega
    | succ k =>
      rw [parseStrBodyAux_escChar]
      rw [ih rest k (by simp only [List.length_append, List.length_cons] at hf ⊢; omega)]

theorem parseString_enc (s rest : Str) :
    parseString (encStr s ++ rest) = .ok (s, rest) := by
  have hshape : encStr s ++ rest = '"' :: (s.flatMap escChar ++ '"' :: rest) := by
    simp [encStr, List.append_assoc]
  rw [hshape]
  simp only [parseString, if_true]
  exact parseStrBodyAux_enc s rest _ (Nat.le_refl _)

theorem skipWs_colon (X : Str) : skipWs (':' :: X) = ':' :: X := rfl

theorem skipWs_brace (X : Str) : skipWs ('\x7d' :: X) = '\x7d' :: X := rfl

theorem skipWs_comma (X : Str) : skipWs (',' :: X) = ',' :: X := rfl

theorem skipWs_space_quote (Z : Str) : skipWs (' ' :: '"' :: Z) = '"' :: Z := rfl

theorem skipWs_space_encStr (v Y : Str) :
    skipWs (' ' :: (encStr v ++ Y)) = encStr v ++ Y := rfl

theorem encEntry_shape (kv : Str × Str) :
    encEntry kv = '"' :: (kv.1.flatMap escChar
      ++ '"' :: ':' :: ' ' :: encStr kv.2) := by
  simp [encEntry, encStr, List.append_assoc]

theorem joinComma_cons_exists (x : Str) (l : List Str) :
    ∃ W, joinComma (x :: l) = x ++ W := by
  cases l with
  | nil => exact ⟨[], by simp [joinComma]⟩
  | cons y t => exact ⟨((", ").data) ++ joinComma (y :: t), by simp [joinComma]⟩

theorem parsePairsAux_enc : ∀ (m : List (Str × Str)) (tail : Str) (fuel : Nat),
    m ≠ [] → m.length ≤ fuel →
    parsePairsAux fuel (joinComma (m.map encEntry) ++ '\x7d' :: tail)
      = .ok (m, tail) := by
  intro m
  induction m with
  | nil =>
    intro tail fuel hne _
    exact absurd rfl hne
  | cons kv t ih =>
    intro tail fuel _ hlen
    cases fuel with
    | zero =>
      exfalso
      simp at hlen
    | succ k =>
      cases t with
      | nil =>
        simp only [List.map_cons, List.map_nil, joinComma]
        rw [parsePairsAux]
        have hsplit : encEntry kv ++ '\x7d' :: tail
            = encStr kv.1 ++ (':' :: ' ' :: (encStr kv.2 ++ '\x7d' :: tail)) := by
          have hcolon : (((": ").data) : Str) = ':' :: ' ' :: [] := rfl
          simp only [encEntry, hcolon, List.append_assoc, List.cons_append,
            List.nil_append]
        rw [hsplit, parseString_enc]
        dsimp only
        rw [skipWs_colon]
        dsimp only
        rw [if_pos rfl]
        rw [skipWs_space_encStr, parseString_enc]
        dsimp only
        rw [skipWs_brace]
        dsimp only
        rw [if_neg (by decide), if_pos rfl]
      | cons kv2 t2 =>
        simp only [List.map_cons, joinComma]
        rw [parsePairsAux]
        have hcomma : (((", ").data) : Str) = ',' :: ' ' :: [] := rfl
        have hsplit : (encEntry kv ++ ((", ").data)
              ++ joinComma (encEntry kv2 :: t2.map encEntry)) ++ '\x7d' :: tail
            = encStr kv.1 ++ (':' :: ' ' :: (encStr kv.2 ++ ',' :: ' '
                :: (joinComma (encEntry kv2 :: t2.map encEntry) ++ '\x7d' :: tail))) := by
          have hcolon : (((": ").data) : Str) = ':' :: ' ' :: [] := rfl
          simp only [encEntry, hcolon, hcomma, List.append_assoc,
            List.cons_append, List.nil_append]
        rw [hsplit, parseString_enc]
        dsimp only
        rw [skipWs_colon]
        dsimp only
        rw [if_pos rfl]
        rw [skipWs_space_encStr, parseString_enc]
        dsimp only
        rw [skipWs_comma]
        dsimp only
        rw [if_pos rfl]
        have hq : skipWs (' '
              :: (joinComma (encEntry kv2 :: t2.map encEntry) ++ '\x7d' :: tail))
            = joinComma (encEntry kv2 :: t2.map encEntry) ++ '\x7d' :: tail := by
          rcases joinComma_cons_exists (encEntry kv2) (t2.map encEntry) with ⟨W, hW⟩
          rw [hW, encEntry_shape kv2]
          simp only [List.cons_append, List.append_assoc]
          exact skipWs_space_quote _
        rw [hq]
        have hih : parsePairsAux k (joinComma ((kv2 :: t2).map encEntry) ++ '\x7d' :: tail)
            = .ok (kv2 :: t2, tail) := by
          apply ih
          · simp
          · simp only [List.length_cons] at hlen ⊢
            omega
        simp only [List.map_cons] at hih
        rw [hih]

theorem length_le_joinComma_encEntry : ∀ (m : List (Str × Str)),
    m.length ≤ (joinComma (m.map encEntry)).length + 1 := by
  intro m
  induction m with
  | nil => simp [joinComma]
  | cons kv t iht =>
    cases t with
    | nil => simp [joinComma]
    | cons kv2 t2 =>
      have hcomma2 : ((((", ").data) : Str)).length = 2 := rfl
      simp only [List.map_cons, joinComma, List.length_cons,
        List.length_append] at iht ⊢
      omega

theorem skipWs_quote (Z : Str) : skipWs ('"' :: Z) = '"' :: Z := rfl

theorem skipWs_obrace (Z : Str) : skipWs ('\x7b' :: Z) = '\x7b' :: Z := rfl

theorem foldl_insert_disjoint : ∀ (m : Settings) (d : Settings),
    (∀ kv ∈ m, ∀ kv2 ∈ d, kv2.1 ≠ kv.1) → (m.map Prod.fst).Nodup →
    m.foldl (fun acc kv => insertEntry kv.1 kv.2 acc) d = d ++ m := by
  intro m
  induction m with
  | nil =>
    intro d _ _
    simp
  | cons kv t ih =>
    intro d hdisj hnd
    simp only [List.foldl_cons]
    have hnotin : d.any (fun kv2 => kv2.1 == kv.1) = false := by
      rw [List.any_eq_false]
      intro kv2 hkv2
      simp only [beq_iff_eq]
      exact hdisj kv (by simp) kv2 hkv2
    have hins : insertEntry kv.1 kv.2 d = d ++ [kv] := by
      rw [insertEntry, if_neg (by simp [hnotin])]
    rw [hins, ih (d ++ [kv]) ?_ ?_]
    · simp
    · intro kv2 hkv2 kv3 hkv3
      rcases List.mem_append.mp hkv3 with h | h
      · exact hdisj kv2 (by simp [hkv2]) kv3 h
      · simp only [List.mem_singleton] at h
        subst h
        have hni := (List.nodup_cons.mp hnd).1
        intro heq
        apply hni
        rw [heq]
        exact List.mem_map_of_mem Prod.fst hkv2
    · exact (List.nodup_cons.mp hnd).2

theorem json_loads_dumps (m : Settings) (hnd : (m.map Prod.fst).Nodup) :
    json_loads (json_dumps m) = .ok m := by
  cases m with
  | nil => rfl
  | cons kv t =>
    have hJ : ∃ W, joinComma ((kv :: t).map encEntry) = '"' :: W := by
      rcases joinComma_cons_exists (encEntry kv) (t.map encEntry) with ⟨W, hW⟩
      rw [List.map_cons, hW, encEntry_shape kv]
      refine ⟨(kv.1.flatMap escChar ++ '"' :: ':' :: ' ' :: encStr kv.2) ++ W, ?_⟩
      simp [List.cons_append, List.append_assoc]
    rcases hJ with ⟨W, hW⟩
    rw [json_dumps, json_loads]
    rw [skipWs_obrace]
    dsimp only
    rw [if_pos rfl]
    have hr1 : joinComma ((kv :: t).map encEntry) ++ ['\x7d']
        = '"' :: (W ++ ['\x7d']) := by
      rw [hW]
      rfl
    rw [hr1, skipWs_quote]
    dsimp only
    rw [if_neg (by decide)]
    rw [show ('"' :: (W ++ ['\x7d'])) = joinComma ((kv :: t).map encEntry)
        ++ '\x7d' :: [] from by rw [hr1]]
    rw [parsePairs]
    rw [parsePairsAux_enc (kv :: t) [] _ (by simp) ?_]
    · dsimp only
      rw [show skipWs ([] : Str) = [] from rfl]
      rw [if_pos rfl]
      have := foldl_insert_disjoint (kv :: t) [] (by simp) hnd
      simp only [List.nil_append] at this
      rw [this]
    · have h1 := length_le_joinComma_encEntry (kv :: t)
      simp only [List.length_append, List.length_cons, List.length_nil] at h1 ⊢
      omega

/-- The observable state the settings and stylesheet code touches: the
settings file content (`none` when the file does not exist), the per-user
script directory path reported by the host, the other files on disk (full
path to content), the application-wide stylesheet last applied, and the
warnings reported so far.  UI-only effects (widget repaints, menus,
dialogs) have no bearing on this state and are not modelled. -/
structure World where
  settingsFile : Option Str
  userScriptDir : Str
  files : List (Str × Str)
  appStyleSheet : Option Str
  warnings : List Str
deriving DecidableEq

/-- `save_settings` (UIPresetLoader.py lines 17-19): overwrite the settings
file with the json dump of the mapping. -/
def save_settings (settings : Settings) (w : World) : World :=
  { w with settingsFile := some (json_dumps settings) }

/-- `load_settings` (UIPresetLoader.py lines 21-25): return `{}` when the
settings file does not exist, otherwise parse it.  There is no try/except:
json.load's exception on unreadable or malformed content propagates. -/
def load_settings (w : World) : Except String Settings :=
  match w.settingsFile with
  | none => .ok []
  | some txt => json_loads txt

/-- Python `dict.get(k, default)`. -/
def dictGet (d : Settings) (k default : Str) : Str :=
  match d.find? (fun kv => kv.1 == k) with
  | some kv => kv.2
  | none => default

/-- POSIX `os.path.join` for the relative second components this program
passes to it. -/
def pyJoin (a b : Str) : Str :=
  if a = [] then b
  else if a.getLast? = some '/' then a ++ b
  else a ++ '/' :: b

/-- Python `str.lower()` (ASCII case folding; every theme name this
program handles is ASCII). -/
def pyLower (s : Str) : Str := s.map Char.toLower

/-- Python `str.replace(old, new)` for non-empty `old`, with a structural
recursion budget that a budget of the input length never exhausts. -/
def pyReplaceAux (old new : Str) : Nat → Str → Str
  | 0, s => s
  | _ + 1, [] => []
  | fuel + 1, c :: t =>
    if old.isPrefixOf (c :: t) ∧ old ≠ [] then
      new ++ pyReplaceAux old new fuel (List.drop (old.length - 1) t)
    else c :: pyReplaceAux old new fuel t

def pyReplace (old new s : Str) : Str := pyReplaceAux old new s.length s

/-- The stylesheet filename for a theme (UIPresetLoader.py line 91):
`f"{selected_theme.lower().replace(' ', '')}_stylesheet.qss"`. -/
def qss_name (theme : Str) : Str :=
  pyReplace [' '] [] (pyLower theme) ++ (("_stylesheet.qss").data)

/-- The add-on's stylesheet directory (UIPresetLoader.py line 90):
`os.path.join(cmds.internalVar(userScriptDir=True), "MayaUIChanger/")`. -/
def maya_script_dir (w : World) : Str :=
  pyJoin w.userScriptDir (("MayaUIChanger/").data)

/-- The full path of the resolved stylesheet file (line 91). -/
def qss_path (w : World) (theme : Str) : Str :=
  pyJoin (maya_script_dir w) (qss_name theme)

/-- `os.path.exists` plus `open(...).read()` over the modelled file map. -/
def fileLookup (w : World) (path : Str) : Option Str :=
  (w.files.find? (fun f => f.1 == path)).map (fun f => f.2)

/-- Theme resolution (UIPresetLoader.py lines 83-84). -/
def resolve_theme (selected_theme : Option Str) (settings : Settings) : Str :=
  selected_theme.getD
    (dictGet settings (("selected_theme").data) (("Maya Default").data))

/-- Font-size resolution (UIPresetLoader.py lines 87-88). -/
def resolve_font_size (font_size : Option Str) (settings : Settings) : Str :=
  font_size.getD (dictGet settings (("font_size").data) (("Auto").data))

/-- `apply_styles` (UIPresetLoader.py lines 79-128) over the modelled
state: load the settings (a parse error propagates), resolve the theme and
font-size policy, locate the stylesheet file; if it is missing, report a
warning and return; otherwise apply the transformed stylesheet
application-wide and persist the updated settings as a whole-document
overwrite.  `clear_target_windows` only repaints widgets and is outside
the modelled state. -/
def apply_styles (selected_theme font_size : Option Str) (w : World) :
    Except String World :=
  match load_settings w with
  | .error e => .error e
  | .ok settings =>
    match fileLookup w (qss_path w (resolve_theme selected_theme settings)) with
    | none =>
      .ok { w with warnings := w.warnings
              ++ [(("Style file not found: ").data)
                  ++ qss_path w (resolve_theme selected_theme settings)] }
    | some style_sheet =>
      .ok { w with
        appStyleSheet := some (modify_font_size
          (resolve_font_size font_size settings) style_sheet),
        settingsFile := some (json_dumps
          (insertEntry (("font_size").data)
            (resolve_font_size font_size settings)
            (insertEntry (("selected_theme").data)
              (resolve_theme selected_theme settings) settings))) }

/-- The setup code the installer appends to userSetup.py (install.py lines
110-128), byte for byte. -/
def robust_setup_code : Str :=
  ("\n# -- MayaUIChanger Start --\nimport maya.utils\n\ndef mui_startup():\n    try:\n        import MayaUIChanger.UIPresetLoader as UIPresetLoader\n        UIPresetLoader.run()\n    except Exception as e:\n        print(f\"MayaUIChanger Error: {e}\")\n        \n    try:\n        import MayaUIChanger.SplashLoader\n    except Exception as e:\n        print(f\"MayaUIChanger Splash Error: {e}\")\n\nmaya.utils.executeDeferred(mui_startup)\n# -- MayaUIChanger End --\n").data

/-- The userSetup.py patch step of `install` (install.py lines 130-144):
read the existing file when present; when it already mentions
`MayaUIChanger`, leave it unchanged; otherwise append a newline and the
setup code; when no file exists, create it with the setup code alone. -/
def patch_usersetup (existing : Option Str) : Str :=
  match existing with
  | some content =>
    if strContains (("MayaUIChanger").data) content then content
    else content ++ '\n' :: robust_setup_code
  | none => robust_setup_code

theorem pyReplaceAux_space_filter : ∀ (fuel : Nat) (s : Str), s.length ≤ fuel →
    pyReplaceAux [' '] [] fuel s = s.filter (fun c => !(c == ' ')) := by
  intro fuel
  induction fuel with
  | zero =>
    intro s hs
    have : s = [] := List.length_eq_zero.mp (Nat.le_zero.mp hs)
    subst this
    rfl
  | succ k ih =>
    intro s hs
    cases s with
    | nil => rfl
    | cons c t =>
      simp only [pyReplaceAux]
      by_cases hc : c = ' '
      · subst hc
        rw [if_pos ⟨by simp [List.isPrefixOf], by simp⟩]
        simp only [List.nil_append, List.length_singleton, Nat.sub_self,
          List.drop_zero]
        rw [ih t (by simp only [List.length_cons] at hs; omega)]
        simp [List.filter_cons]
      · rw [if_neg (fun hcc => by
          have := hcc.1
          simp only [List.isPrefixOf, Bool.and_eq_true, beq_iff_eq] at this
          exact hc this.1.symm)]
        rw [ih t (by simp only [List.length_cons] at hs; omega)]
        simp [List.filter_cons, hc]

theorem find?_insert_map (k v : Str) : ∀ (d : Settings),
    d.any (fun kv => kv.1 == k) = true →
    (d.map (fun kv => if kv.1 == k then (k, v) else kv)).find?
        (fun kv => kv.1 == k) = some (k, v) := by
  intro d
  induction d with
  | nil => intro h; simp at h
  | cons kv t ih =>
    intro hany
    simp only [List.any_cons, Bool.or_eq_true] at hany
    simp only [List.map_cons]
    by_cases h : (kv.1 == k) = true
    · rw [if_pos h]
      simp [List.find?_cons]
    · rw [if_neg h]
      rw [List.find?_cons_of_neg _ (by simp_all)]
      apply ih
      rcases hany with h1 | h1
      · exact absurd h1 h
      · exact h1

theorem dictGet_insertEntry_self (k v : Str) (d : Settings) (dflt : Str) :
    dictGet (insertEntry k v d) k dflt = v := by
  rw [insertEntry]
  split
  · rename_i hany
    rw [dictGet, find?_insert_map k v d hany]
  · rename_i hany
    have hany' : d.any (fun kv => kv.1 == k) = false := by
      revert hany
      cases d.any (fun kv => kv.1 == k)
      · intro _; rfl
      · intro hh; exact absurd rfl hh
    have hnone : d.find? (fun kv => kv.1 == k) = none := by
      rw [List.find?_eq_none]
      exact List.any_eq_false.mp hany'
    rw [dictGet, List.find?_append, hnone]
    have : (([(k, v)] : Settings).find? (fun kv => kv.1 == k)) = some (k, v) := by
      rw [List.find?_cons]
      simp
    rw [this]
    rfl

theorem find?_insert_map_other (k v k2 : Str) (hne : k2 ≠ k) : ∀ (d : Settings),
    (d.map (fun kv => if kv.1 == k then (k, v) else kv)).find?
        (fun kv => kv.1 == k2)
      = d.find? (fun kv => kv.1 == k2) := by
  intro d
  induction d with
  | nil => rfl
  | cons kv t ih =>
    simp only [List.map_cons]
    by_cases h : (kv.1 == k) = true
    · rw [if_pos h]
      have h1 : ((k, v).1 == k2) = false := by
        simp only [beq_eq_false_iff_ne, ne_eq]
        exact fun he => hne he.symm
      have h2 : (kv.1 == k2) = false := by
        simp only [beq_eq_false_iff_ne, ne_eq]
        have hk : kv.1 = k := by simpa using h
        rw [hk]
        exact fun he => hne he.symm
      rw [List.find?_cons, h1, List.find?_cons, h2]
      exact ih
    · rw [if_neg h]
      by_cases h2 : (kv.1 == k2) = true
      · rw [List.find?_cons, h2, List.find?_cons, h2]
      · have h2' : (kv.1 == k2) = false := by
          revert h2
          cases kv.1 == k2
          · intro _; rfl
          · intro hh; exact absurd rfl hh
        rw [List.find?_cons, h2', List.find?_cons, h2']
        exact ih

theorem dictGet_insertEntry_other (k v k2 : Str) (d : Settings) (dflt : Str)
    (hne : k2 ≠ k) :
    dictGet (insertEntry k v d) k2 dflt = dictGet d k2 dflt := by
  rw [insertEntry]
  split
  · rw [dictGet, find?_insert_map_other k v k2 hne d, dictGet]
  · have hlast : (([(k, v)] : Settings).find? (fun kv => kv.1 == k2)) = none := by
      rw [List.find?_eq_none]
      intro kv hkv
      simp only [List.mem_singleton] at hkv
      subst hkv
      simpa using fun he => hne he.symm
    rw [dictGet, List.find?_append, hlast, dictGet]
    cases d.find? (fun kv => kv.1 == k2) with
    | none => rfl
    | some kv => rfl

theorem nodup_insertEntry (k v : Str) (d : Settings)
    (h : (d.map Prod.fst).Nodup) :
    ((insertEntry k v d).map Prod.fst).Nodup := by
  rw [insertEntry]
  split
  · have hkeys : (d.map (fun kv => if kv.1 == k then (k, v) else kv)).map Prod.fst
        = d.map Prod.fst := by
      rw [List.map_map]
      apply List.map_congr_left
      intro kv _
      by_cases hh : (kv.1 == k) = true
      · have : kv.1 = k := by simpa using hh
        simp [Function.comp, hh, this]
      · simp [Function.comp, hh]
    rw [hkeys]
    exact h
  · rename_i hany
    have hany' : (d.any fun kv => kv.1 == k) = false := by
      revert hany
      cases d.any (fun kv => kv.1 == k)
      · intro _; rfl
      · intro hh; exact absurd rfl hh
    rw [List.map_append]
    apply List.Nodup.append h (by simp)
    intro a ha hb
    simp only [List.map_cons, List.map_nil, List.mem_singleton] at hb
    subst hb
    rcases List.mem_map.mp ha with ⟨kv, hkv, hfst⟩
    have hfalse := List.any_eq_false.mp hany' kv hkv
    simp only [beq_iff_eq] at hfalse
    exact hfalse hfst

theorem strContains_append_right (p b : Str) (h : strContains p b = true)
    (a : Str) : strContains p (a ++ b) = true := by
  rcases (strContains_iff p b).mp h with ⟨u, v, huv⟩
  apply (strContains_iff p (a ++ b)).mpr
  exact ⟨a ++ u, v, by rw [huv]; simp [List.append_assoc]⟩

/-- The two abort paths of `apply_styles` share this shape: when the
resolved stylesheet file is absent, the only change to the world is the
appended warning. -/
theorem apply_styles_missing_case (w : World) (targ farg : Option Str)
    (st : Settings)
    (hload : load_settings w = .ok st)
    (hmiss : fileLookup w (qss_path w (resolve_theme targ st)) = none) :
    apply_styles targ farg w
      = .ok { w with warnings := w.warnings
          ++ [(("Style file not found: ").data)
              ++ qss_path w (resolve_theme targ st)] } := by
  rw [apply_styles, hload]
  dsimp only
  rw [hmiss]

/-- C3 (confirmed): saving any flat string-to-string mapping (a Python
dict, so its keys are distinct) and loading it back returns an equal
mapping. -/
theorem c3_settings_roundtrip (w : World) (m : Settings)
    (hnd : (m.map Prod.fst).Nodup) :
    load_settings (save_settings m w) = .ok m := by
  simp only [save_settings, load_settings]
  exact json_loads_dumps m hnd

/-- C3 (witness): the round trip on the claim's own mapping
`{selected_theme: "X", font_size: "12pt"}`. -/
theorem c3_roundtrip_witness :
    load_settings (save_settings
      [((("selected_theme").data), (("X").data)),
       ((("font_size").data), (("12pt").data))]
      ⟨none, [], [], none, []⟩)
      = .ok [((("selected_theme").data), (("X").data)),
             ((("font_size").data), (("12pt").data))] :=
  c3_settings_roundtrip ⟨none, [], [], none, []⟩ _ (by decide)

/-- C4 (counterexample): when the settings file exists but is malformed
(here the single character `{`), `load_settings` does not return an empty
mapping — json.load's parse error propagates, because the code has no
try/except.  This refutes the claim that a read/parse error collapses to
the no-file case without raising. -/
theorem c4_counterexample :
    (∃ e, load_settings ⟨some (("\x7b").data), [], [], none, []⟩
        = .error e)
    ∧ ∀ m : Settings,
        load_settings ⟨some (("\x7b").data), [], [], none, []⟩ ≠ .ok m := by
  constructor
  · exact ⟨"Expecting property name", rfl⟩
  · intro m h
    rw [show load_settings ⟨some (("\x7b").data), [], [], none, []⟩
        = .error "Expecting property name" from rfl] at h
    exact absurd h (by simp)

/-- C4 (amended): `load_settings` returns the persisted mapping when the
settings file exists and parses, and an empty mapping when no settings
file exists; but when the file exists and is malformed, the parse error
propagates (the function raises), so that case is distinguished from the
no-file case. -/
theorem c4_amended_load_settings (w : World) (m : Settings) (txt : Str)
    (e : String) (hnd : (m.map Prod.fst).Nodup) :
    load_settings { w with settingsFile := none } = .ok []
    ∧ load_settings { w with settingsFile := some (json_dumps m) } = .ok m
    ∧ (json_loads txt = .error e →
        load_settings { w with settingsFile := some txt } = .error e) := by
  refine ⟨rfl, ?_, ?_⟩
  · simp only [load_settings]
    exact json_loads_dumps m hnd
  · intro h
    simp only [load_settings, h]

/-- C4 (amended, witness): the three behaviours at concrete inputs. -/
theorem c4_amended_witness :
    load_settings ⟨none, [], [], none, []⟩ = .ok []
    ∧ load_settings
        ⟨some (json_dumps [((("a").data), (("b").data))]), [], [], none, []⟩
        = .ok [((("a").data), (("b").data))]
    ∧ load_settings ⟨some (("\x7b").data), [], [], none, []⟩
        = .error "Expecting property name" := by
  have h := c4_amended_load_settings ⟨none, [], [], none, []⟩
    [((("a").data), (("b").data))] (("\x7b").data)
    "Expecting property name" (by decide)
  exact ⟨h.1, h.2.1, h.2.2 rfl⟩

/-- C5 (confirmed): when the settings load succeeds but the resolved
stylesheet file does not exist, `apply_styles` reports the warning naming
the missing file and returns; the application stylesheet and the settings
file — and everything else in the world — are untouched, and no other
theme is tried. -/
theorem c5_missing_stylesheet_warns (w : World) (targ farg : Option Str)
    (st : Settings)
    (hload : load_settings w = .ok st)
    (hmiss : fileLookup w (qss_path w (resolve_theme targ st)) = none) :
    apply_styles targ farg w
      = .ok { w with warnings := w.warnings
          ++ [(("Style file not found: ").data)
              ++ qss_path w (resolve_theme targ st)] } :=
  apply_styles_missing_case w targ farg st hload hmiss

/-- C5 (witness): a world with no settings file and no stylesheet files
yields exactly the warning for the default theme's resolved path. -/
theorem c5_missing_witness :
    apply_styles none none ⟨none, [], [], none, []⟩
      = .ok ⟨none, [], [], none,
          [(("Style file not found: MayaUIChanger/mayadefault_stylesheet.qss").data)]⟩ :=
  (c5_missing_stylesheet_warns ⟨none, [], [], none, []⟩ none none [] rfl rfl).trans
    (by rfl)

/-- C10 (confirmed): on the missing-stylesheet path `apply_styles` returns
before the settings-save step: the persisted settings file (and the
applied stylesheet) of the resulting world are exactly those of the world
before the call. -/
theorem c10_missing_stylesheet_no_persist (w : World) (targ farg : Option Str)
    (st : Settings)
    (hload : load_settings w = .ok st)
    (hmiss : fileLookup w (qss_path w (resolve_theme targ st)) = none) :
    ∃ w2, apply_styles targ farg w = .ok w2
      ∧ w2.settingsFile = w.settingsFile
      ∧ w2.appStyleSheet = w.appStyleSheet := by
  refine ⟨{ w with warnings := w.warnings
      ++ [(("Style file not found: ").data)
          ++ qss_path w (resolve_theme targ st)] }, ?_, rfl, rfl⟩
  exact apply_styles_missing_case w targ farg st hload hmiss

/-- C10 (witness): at a concrete world whose stylesheet file is absent,
the settings file is unchanged by the call. -/
theorem c10_missing_witness :
    ∃ w2, apply_styles none none
        ⟨some (json_dumps [((("selected_theme").data), (("Umbra").data))]),
         [], [], none, []⟩ = .ok w2
      ∧ w2.settingsFile
          = some (json_dumps [((("selected_theme").data), (("Umbra").data))])
      ∧ w2.appStyleSheet = none :=
  c10_missing_stylesheet_no_persist
    ⟨some (json_dumps [((("selected_theme").data), (("Umbra").data))]),
     [], [], none, []⟩
    none none [((("selected_theme").data), (("Umbra").data))] (by rfl) (by rfl)

/-- C6 (confirmed): the stylesheet filename is the theme name lower-cased
with every space removed, followed by the fixed suffix `_stylesheet.qss`;
`Blender Dark` resolves to `blenderdark_stylesheet.qss`, and the path
`apply_styles` probes is this filename joined to the add-on directory. -/
theorem c6_qss_filename_resolution :
    (∀ theme : Str, qss_name theme
        = (theme.map Char.toLower).filter (fun c => !(c == ' '))
          ++ (("_stylesheet.qss").data))
    ∧ qss_name (("Blender Dark").data) = (("blenderdark_stylesheet.qss").data)
    ∧ (∀ (w : World) (theme : Str), qss_path w theme
        = pyJoin (pyJoin w.userScriptDir (("MayaUIChanger/").data))
            (qss_name theme)) := by
  refine ⟨?_, by decide, fun _ _ => rfl⟩
  intro theme
  rw [qss_name, pyReplace, pyLower]
  rw [pyReplaceAux_space_filter _ _ (Nat.le_refl _)]

/-- C9 (confirmed): every successful `apply_styles` call (settings load
succeeded and the resolved stylesheet file exists) persists the settings
as a whole-document overwrite in which `selected_theme` is the resolved
theme and `font_size` the resolved policy; a `none` argument resolves from
the stored settings with defaults `Maya Default` and `Auto`, and a `some`
argument resolves to itself.  The persisted document re-reads as exactly
the mapping that was written. -/
theorem c9_success_persists_settings (w : World) (targ farg : Option Str)
    (st : Settings) (content : Str)
    (hload : load_settings w = .ok st)
    (hfile : fileLookup w (qss_path w (resolve_theme targ st))
      = some content) :
    (∃ w2, apply_styles targ farg w = .ok w2
      ∧ w2.settingsFile = some (json_dumps
          (insertEntry (("font_size").data) (resolve_font_size farg st)
            (insertEntry (("selected_theme").data) (resolve_theme targ st) st)))
      ∧ w2.appStyleSheet
          = some (modify_font_size (resolve_font_size farg st) content)
      ∧ w2.warnings = w.warnings)
    ∧ dictGet (insertEntry (("font_size").data) (resolve_font_size farg st)
          (insertEntry (("selected_theme").data) (resolve_theme targ st) st))
        (("selected_theme").data) [] = resolve_theme targ st
    ∧ dictGet (insertEntry (("font_size").data) (resolve_font_size farg st)
          (insertEntry (("selected_theme").data) (resolve_theme targ st) st))
        (("font_size").data) [] = resolve_font_size farg st
    ∧ resolve_theme none st
        = dictGet st (("selected_theme").data) (("Maya Default").data)
    ∧ resolve_font_size none st
        = dictGet st (("font_size").data) (("Auto").data)
    ∧ (∀ t0 f0 : Str, resolve_theme (some t0) st = t0
        ∧ resolve_font_size (some f0) st = f0)
    ∧ ((st.map Prod.fst).Nodup →
        json_loads (json_dumps
          (insertEntry (("font_size").data) (resolve_font_size farg st)
            (insertEntry (("selected_theme").data) (resolve_theme targ st) st)))
        = .ok (insertEntry (("font_size").data) (resolve_font_size farg st)
            (insertEntry (("selected_theme").data) (resolve_theme targ st) st))) := by
  refine ⟨?_, ?_, ?_, rfl, rfl, fun _ _ => ⟨rfl, rfl⟩, ?_⟩
  · refine ⟨{ w with
        appStyleSheet := some (modify_font_size
          (resolve_font_size farg st) content),
        settingsFile := some (json_dumps
          (insertEntry (("font_size").data) (resolve_font_size farg st)
            (insertEntry (("selected_theme").data)
              (resolve_theme targ st) st))) }, ?_, rfl, rfl, rfl⟩
    rw [apply_styles, hload]
    dsimp only
    rw [hfile]
  · rw [dictGet_insertEntry_other _ _ _ _ _ (by decide),
      dictGet_insertEntry_self]
  · rw [dictGet_insertEntry_self]
  · intro hnd
    exact json_loads_dumps _
      (nodup_insertEntry _ _ _ (nodup_insertEntry _ _ _ hnd))

/-- C9 (witness): a successful call on a world with no prior settings file
persists `{"selected_theme": "Maya Default", "font_size": "Auto"}`. -/
theorem c9_success_witness :
    ∃ w2, apply_styles none none
        ⟨none, (("u/").data),
         [((("u/MayaUIChanger/mayadefault_stylesheet.qss").data),
           (("QWidget \x7b a \x7d").data))], none, []⟩ = .ok w2
      ∧ w2.settingsFile = some (json_dumps
          (insertEntry (("font_size").data) (resolve_font_size none [])
            (insertEntry (("selected_theme").data) (resolve_theme none []) [])))
      ∧ w2.appStyleSheet = some (modify_font_size (resolve_font_size none [])
          (("QWidget \x7b a \x7d").data))
      ∧ w2.warnings = ([] : List Str) :=
  (c9_success_persists_settings
    ⟨none, (("u/").data),
     [((("u/MayaUIChanger/mayadefault_stylesheet.qss").data),
       (("QWidget \x7b a \x7d").data))], none, []⟩
    none none [] (("QWidget \x7b a \x7d").data) rfl (by rfl)).1

/-- C8 (confirmed): the installer's userSetup.py patch is marker-guarded
and idempotent: content already containing `MayaUIChanger` is left
unchanged; otherwise the setup code (which itself contains the marker) is
appended after a newline; hence patching twice — from any starting
content, or from no file — equals patching once. -/
theorem c8_installer_patch_idempotent (c : Str) :
    (strContains (("MayaUIChanger").data) c = true →
      patch_usersetup (some c) = c)
    ∧ (strContains (("MayaUIChanger").data) c = false →
      patch_usersetup (some c) = c ++ '\n' :: robust_setup_code)
    ∧ strContains (("MayaUIChanger").data) robust_setup_code = true
    ∧ patch_usersetup (some (patch_usersetup (some c))) = patch_usersetup (some c)
    ∧ patch_usersetup (some (patch_usersetup none)) = patch_usersetup none := by
  have hmarker : strContains (("MayaUIChanger").data) robust_setup_code
      = true := by decide
  refine ⟨?_, ?_, hmarker, ?_, ?_⟩
  · intro h
    simp [patch_usersetup, h]
  · intro h
    simp [patch_usersetup, h]
  · by_cases h : strContains (("MayaUIChanger").data) c = true
    · simp [patch_usersetup, h]
    · have h' : strContains (("MayaUIChanger").data) c = false := by
        revert h
        cases strContains (("MayaUIChanger").data) c
        · intro _; rfl
        · intro hh; exact absurd rfl hh
      have hstep : patch_usersetup (some c) = c ++ '\n' :: robust_setup_code := by
        simp [patch_usersetup, h']
      rw [hstep]
      have hc2 : strContains (("MayaUIChanger").data)
          (c ++ '\n' :: robust_setup_code) = true := by
        have : ('\n' :: robust_setup_code) = ['\n'] ++ robust_setup_code := rfl
        rw [this, ← List.append_assoc]
        exact strContains_append_right _ _ hmarker _
      simp [patch_usersetup, hc2, hstep]
  · have : patch_usersetup none = robust_setup_code := rfl
    rw [this]
    simp [patch_usersetup, hmarker]

/-- C8 (witness): marker-bearing content is untouched, and patching twice
from marker-free content equals patching once. -/
theorem c8_installer_witness :
    patch_usersetup (some (("# MayaUIChanger installed").data))
      = (("# MayaUIChanger installed").data)
    ∧ patch_usersetup (some (patch_usersetup (some (("x = 1").data))))
      = patch_usersetup (some (("x = 1").data)) :=
  ⟨(c8_installer_patch_idempotent (("# MayaUIChanger installed").data)).1
      (by decide),
   (c8_installer_patch_idempotent (("x = 1").data)).2.2.2.1⟩

end MayaUIChanger
